import Mathlib

/-!
Verification of the version-manager core (`gvm` package)

Shallow embedding of `VersionsImpl` (file `part_002` of the repository):
`ListReleases`, `GetLatestReleaseURL`, `DownloadRelease`,
`ListInstalledVersions`, `GetInstalledVersion`, `SortMapKeys`, `InRange`.

External collaborators (the GitHub release lister, the directory lister,
`os.MkdirAll` and the `go-getter` fetcher) are passed in as explicit
arguments holding the collaborator's outcome.  Go maps are modelled as
association lists in insertion order; a Go runtime panic is modelled as a
distinguished result (`Option.none` / `GoResult.panicked`).

The semantic-version engine used by the code is the external
`Masterminds/semver` v1 library, which is not part of the repository
sources; its parse / compare / constraint-check operations are modelled
from the specification (spec §4.1) below, with each such definition marked
`Modelled from the spec:`.
-/

namespace Gvm

/-! Character-list utilities (models of Go `strings` operations) -/

/-- Split a character list at every occurrence of `c` (model of
`strings.Split` for a single-character separator; always returns at least
one (possibly empty) part). -/
def splitOnChar (c : Char) : List Char → List (List Char)
  | [] => [[]]
  | a :: as =>
    match splitOnChar c as with
    | [] => if a = c then [[], []] else [[a]]
    | h :: t => if a = c then [] :: h :: t else (a :: h) :: t

/-- Join character lists with the separator `c` (inverse of `splitOnChar`). -/
def joinWithChar (c : Char) : List (List Char) → List Char
  | [] => []
  | [x] => x
  | x :: xs => x ++ c :: joinWithChar c xs

/-- Model of `strings.TrimLeft(s, "v")`: remove every leading `'v'`. -/
def trimLeftV (s : String) : String :=
  String.mk (s.data.dropWhile (fun c => c = 'v'))

/-- Model of `strings.ToLower` (character-wise lowering; the release-asset
names involved are ASCII). -/
def toLower (s : String) : String :=
  String.mk (s.data.map Char.toLower)

/-- Decimal-digit parse of a character-list; `none` when empty or any
character is not a digit (model of a strict `strconv` numeric parse). -/
def parseNatChars (l : List Char) : Option Nat :=
  if l ≠ [] ∧ l.all Char.isDigit then
    some (l.foldl (fun n c => n * 10 + (c.toNat - 48)) 0)
  else none

/-! The semantic-version engine (spec §4.1) -/

/-- Modelled from the spec: a parsed semantic version produced by the SemVer
Engine (the `Masterminds/semver` v1 dependency, which is not under the
repository sources).  Missing minor/patch segments default to `0`; the
pre-release and build-metadata sections are kept as raw strings and the
*original* input text is preserved verbatim for re-rendering. -/
structure SemVer where
  major : Nat
  minor : Nat
  patch : Nat
  pre : String
  buildMeta : String
  original : String
deriving DecidableEq, Repr

/-- Parse the numeric `major(.minor(.patch)?)?` core, allowing one optional
leading `v`. -/
def parseCore (l : List Char) : Option (Nat × Nat × Nat) :=
  let body := match l with
    | 'v' :: rest => rest
    | _ => l
  match (splitOnChar '.' body).mapM parseNatChars with
  | some [ma] => some (ma, 0, 0)
  | some [ma, mi] => some (ma, mi, 0)
  | some [ma, mi, pa] => some (ma, mi, pa)
  | _ => none

/-- A character allowed in pre-release / build-metadata identifiers
(`[0-9A-Za-z-]`). -/
def validIdentChar (c : Char) : Bool :=
  c.isDigit || c.isAlpha || c = '-'

/-- A non-empty dot-separated sequence of non-empty identifiers over
`validIdentChar`. -/
def validIdentifiers (l : List Char) : Bool :=
  (splitOnChar '.' l).all (fun p => !p.isEmpty && p.all validIdentChar)

/-- Second stage of version parsing: split off the (dash-introduced)
pre-release section from `rest`, with build metadata `md` already removed
and the whole original text `orig`. -/
def parseVersionAux (rest md : List Char) (orig : String) : Option SemVer :=
  match splitOnChar '-' rest with
  | [] => none
  | [core] =>
    (parseCore core).map fun t => ⟨t.1, t.2.1, t.2.2, "", String.mk md, orig⟩
  | core :: preParts =>
    if validIdentifiers (joinWithChar '-' preParts) then
      (parseCore core).map fun t =>
        ⟨t.1, t.2.1, t.2.2, String.mk (joinWithChar '-' preParts), String.mk md, orig⟩
    else none

/-- Modelled from the spec: the SemVer Engine's `parse` (spec §4.1):
optional single leading `v`, decimal `major(.minor(.patch)?)?` segments, an
optional `-`-introduced pre-release of dot-separated alphanumeric
identifiers, an optional `+`-introduced build-metadata section; anything
else is invalid (a skip signal, not a fatal error).  The original string is
preserved in the result. -/
def parseVersion (s : String) : Option SemVer :=
  match splitOnChar '+' s.data with
  | [rest] => parseVersionAux rest [] s
  | [rest, md] => if validIdentifiers md then parseVersionAux rest md s else none
  | _ => none

/-- Lexicographic (byte-wise for ASCII) three-way comparison of character
lists, the model of Go string comparison on identifiers. -/
def compareCharLists : List Char → List Char → Int
  | [], [] => 0
  | [], _ :: _ => -1
  | _ :: _, [] => 1
  | a :: as, b :: bs =>
    if a < b then -1 else if b < a then 1 else compareCharLists as bs

/-- Modelled from the spec: comparison of two pre-release identifiers per
the semantic-versioning specification (spec §4.1): equal parts tie, an
absent part is lower, numeric identifiers compare numerically and are lower
than alphanumeric identifiers, alphanumeric identifiers compare
lexically. -/
def comparePrePart (s o : List Char) : Int :=
  if s = o then 0
  else if s = [] then -1
  else if o = [] then 1
  else
    match parseNatChars s, parseNatChars o with
    | some sn, some sm => if sn > sm then 1 else -1
    | some _, none => -1
    | none, some _ => 1
    | none, none => if compareCharLists s o > 0 then 1 else -1

/-- Compare two dot-split pre-release identifier sequences part by part,
padding the shorter one with absent parts. -/
def comparePreLists : List (List Char) → List (List Char) → Int
  | [], [] => 0
  | s :: ss, [] =>
    let d := comparePrePart s []
    if d = 0 then comparePreLists ss [] else d
  | [], o :: os =>
    let d := comparePrePart [] o
    if d = 0 then comparePreLists [] os else d
  | s :: ss, o :: os =>
    let d := comparePrePart s o
    if d = 0 then comparePreLists ss os else d
termination_by a b => a.length + b.length

/-- Three-way comparison of a numeric version segment. -/
def compareSegment (a b : Nat) : Int :=
  if a < b then -1 else if a > b then 1 else 0

/-- Modelled from the spec: standard semantic-version precedence (spec
§4.1): major, then minor, then patch numerically; a version without a
pre-release section is higher than one with; otherwise the pre-release
sections are compared identifier-wise.  Build metadata is ignored. -/
def compareVersion (v o : SemVer) : Int :=
  let d := compareSegment v.major o.major
  if d ≠ 0 then d else
  let d := compareSegment v.minor o.minor
  if d ≠ 0 then d else
  let d := compareSegment v.patch o.patch
  if d ≠ 0 then d else
  if v.pre = "" then (if o.pre = "" then 0 else 1)
  else if o.pre = "" then -1
  else comparePreLists (splitOnChar '.' v.pre.data) (splitOnChar '.' o.pre.data)

/-- The operator of a range constraint. -/
inductive ConstraintOp where
  | exact | tilde | caret | gtOp | geOp | ltOp | leOp
deriving DecidableEq, Repr

/-- A parsed range constraint: an operator applied to a version. -/
structure Constraint where
  op : ConstraintOp
  ver : SemVer
deriving DecidableEq, Repr

/-- Modelled from the spec: constraint parsing by the SemVer Engine (spec
§3, §4.1; the `Masterminds/semver` v1 dependency).  A single operator
(`~`, `^`, `>=`, `<=`, `>`, `<`, `=`, or none for an exact match) followed
by a version (which itself may carry a leading `v`); anything whose version
part does not parse is a malformed constraint. -/
def parseConstraint (s : String) : Option Constraint :=
  match s.data with
  | '~' :: rest => (parseVersion (String.mk rest)).map fun v => ⟨ConstraintOp.tilde, v⟩
  | '^' :: rest => (parseVersion (String.mk rest)).map fun v => ⟨ConstraintOp.caret, v⟩
  | '>' :: '=' :: rest => (parseVersion (String.mk rest)).map fun v => ⟨ConstraintOp.geOp, v⟩
  | '<' :: '=' :: rest => (parseVersion (String.mk rest)).map fun v => ⟨ConstraintOp.leOp, v⟩
  | '>' :: rest => (parseVersion (String.mk rest)).map fun v => ⟨ConstraintOp.gtOp, v⟩
  | '<' :: rest => (parseVersion (String.mk rest)).map fun v => ⟨ConstraintOp.ltOp, v⟩
  | '=' :: rest => (parseVersion (String.mk rest)).map fun v => ⟨ConstraintOp.exact, v⟩
  | rest => (parseVersion (String.mk rest)).map fun v => ⟨ConstraintOp.exact, v⟩

/-- Modelled from the spec: constraint satisfaction (spec §3; the tilde
range per the source's own interface comment — `~1.2.3` means at least
`1.2.3` and below `1.3.0` — and the caret range per the README — `^1.2.3`
means at least `1.2.3` and below `2.0.0`). -/
def checkConstraint (c : Constraint) (v : SemVer) : Bool :=
  match c.op with
  | ConstraintOp.exact => compareVersion v c.ver = 0
  | ConstraintOp.tilde =>
      decide (compareVersion v c.ver ≥ 0) &&
      decide (v.major = c.ver.major) && decide (v.minor = c.ver.minor)
  | ConstraintOp.caret =>
      decide (compareVersion v c.ver ≥ 0) && decide (v.major = c.ver.major)
  | ConstraintOp.gtOp => decide (compareVersion v c.ver > 0)
  | ConstraintOp.geOp => decide (compareVersion v c.ver ≥ 0)
  | ConstraintOp.ltOp => decide (compareVersion v c.ver < 0)
  | ConstraintOp.leOp => decide (compareVersion v c.ver ≤ 0)

/-! Data model of the program (`part_002`) -/

/-- A release asset: a name and a browser download URL
(`github.ReleaseAsset`, the two fields the code reads). -/
structure Asset where
  name : String
  browserDownloadURL : String
deriving DecidableEq, Repr

/-- A remote release: a tag name and its assets
(`github.RepositoryRelease`, the two fields the code reads). -/
structure Release where
  tagName : String
  assets : List Asset
deriving DecidableEq, Repr

/-- `Options` from the source: configuration for `VersionsImpl`.  The
`GOOS`/`GOARCH` defaulting of `New` has already happened (it reads the
ambient runtime, an external input). -/
structure Options where
  Organization : String
  Repo : String
  GOOS : String
  GOARCH : String
  AssetNameFunc : String → String → String → String
  ExeNameFunc : String → String → String → String
  ReleasesPath : String

/-- The error kinds produced by the code (the `xerrors` messages,
identified by kind; wrapping only adds message text, which is not
modelled). -/
inductive GvmError where
  | listError
  | invalidConstraint
  | invalidVersion
  | dirCreateError
  | fetchError
deriving DecidableEq, Repr

/-- Result of a Go call that may also panic at runtime: `ok`, a returned
error, or a runtime panic. -/
inductive GoResult (α : Type) where
  | ok : α → GoResult α
  | error : GvmError → GoResult α
  | panicked : GoResult α
deriving DecidableEq, Repr

/-- A Go `map[string]string` modelled as an association list in insertion
order; keys are kept unique by `mapInsert`. -/
abbrev Catalog := List (String × String)

/-- Insertion into the catalog, with Go-map overwrite semantics: an
existing key has its value replaced, a new key is appended. -/
def mapInsert (m : Catalog) (k v : String) : Catalog :=
  if m.any (fun kv => kv.1 = k) then
    m.map (fun kv => if kv.1 = k then (k, v) else kv)
  else m ++ [(k, v)]

/-- Model of Go `path.Join` on two segments (an empty segment disappears;
the `path.Clean` normalization of `..` and duplicate slashes is not
modelled — no claim concerns it). -/
def pathJoin (a b : String) : String :=
  if a = "" then b else if b = "" then a else a ++ "/" ++ b

/-! The operations of `VersionsImpl` (`part_002`) -/

/-- `VersionsImpl.InRange` (lines 220–232): parse the constraint (an
`InvalidConstraint` error when malformed), then the version (an
`InvalidVersion` error when malformed), then check. -/
def InRange (version constraint : String) : Except GvmError Bool :=
  match parseConstraint constraint with
  | none => Except.error GvmError.invalidConstraint
  | some c =>
    match parseVersion version with
    | none => Except.error GvmError.invalidVersion
    | some ver => Except.ok (checkConstraint c ver)

/-- The inner asset loop of `ListReleases` (lines 102–110): scan the assets
in order; for each, recompute the trimmed tag and the expected filename and
compare names case-insensitively; the first match's download URL wins. -/
def findAssetURL (o : Options) (tagName : String) : List Asset → Option String
  | [] => none
  | a :: rest =>
    let tag := trimLeftV tagName
    let fn := o.AssetNameFunc tag o.GOOS o.GOARCH
    if toLower a.name = toLower fn then some a.browserDownloadURL
    else findAssetURL o tagName rest

/-- One release's contribution to the catalog: record
`tag ↦ first matching asset URL` when a matching asset exists, nothing
otherwise. -/
def releaseScan (o : Options) (g : Release) (tags : Catalog) : Catalog :=
  match findAssetURL o g.tagName g.assets with
  | some url => mapInsert tags g.tagName url
  | none => tags

/-- The release loop of `ListReleases` (lines 88–111): under a non-empty
constraint, any `InRange` error aborts the whole call (the code re-wraps it
in an "Invalid sematic version constraint" message); a non-matching tag is
skipped; a matching (or unconstrained) release is scanned for an asset. -/
def listReleasesLoop (o : Options) (constraint : String) :
    List Release → Catalog → Except GvmError Catalog
  | [], tags => Except.ok tags
  | g :: rest, tags =>
    if constraint ≠ "" then
      match InRange g.tagName constraint with
      | Except.error e => Except.error e
      | Except.ok valid =>
        if !valid then listReleasesLoop o constraint rest tags
        else listReleasesLoop o constraint rest (releaseScan o g tags)
    else listReleasesLoop o constraint rest (releaseScan o g tags)

/-- `VersionsImpl.ListReleases` (lines 80–114).  `gh` is the outcome of the
external GitHub release-lister collaborator; its failure becomes a
`ListError`. -/
def ListReleases (o : Options) (gh : Except GvmError (List Release))
    (constraint : String) : Except GvmError Catalog :=
  match gh with
  | Except.error _ => Except.error GvmError.listError
  | Except.ok gr => listReleasesLoop o constraint gr []

/-- Insertion sort by semantic-version precedence (the model of
`sort.Sort(semver.Collection(vs))`: a permutation of the input ordered by
`compareVersion`). -/
def insertSorted (x : SemVer) : List SemVer → List SemVer
  | [] => [x]
  | y :: ys =>
    if compareVersion x y ≤ 0 then x :: y :: ys else y :: insertSorted x ys

/-- Sort a list of versions ascending by `compareVersion`. -/
def sortVersions (l : List SemVer) : List SemVer :=
  l.foldr insertSorted []

/-- The parse results of all keys, or `none` as soon as one key failed to
parse (the nil entry that the Go slice would carry). -/
def allSome : List (Option SemVer) → Option (List SemVer)
  | [] => some []
  | none :: _ => none
  | some v :: rest => (allSome rest).map (v :: ·)

/-- `VersionsImpl.SortMapKeys` (lines 195–218).  The code parses every key
with `v, _ := semver.NewVersion(k)` and appends the result to the slice
*even when parsing failed and `v` is nil*; sorting the collection (or
rendering it with `Original()`) then dereferences the nil pointer and the
call panics.  So: `none` (panic) whenever any key fails to parse, otherwise
the keys sorted ascending by precedence and re-rendered in their original
form, reversed when `descending` is set. -/
def SortMapKeys (m : Catalog) (descending : Bool) : Option (List String) :=
  match allSome (m.map (fun kv => parseVersion kv.1)) with
  | none => none
  | some vs =>
    let sorted := sortVersions vs
    if !descending then some (sorted.map SemVer.original)
    else some ((sorted.map SemVer.original).reverse)

/-- The shared latest-selection logic of `GetLatestReleaseURL` (lines
123–130) and `GetInstalledVersion` (lines 185–193): sort the catalog's keys
ascending, return `("", "")` on an empty key list, otherwise the last key
and the value stored under it (`none` models the `SortMapKeys` panic). -/
def getLatestFromCatalog (assets : Catalog) : Option (String × String) :=
  match SortMapKeys assets false with
  | none => none
  | some keys =>
    if keys.length = 0 then some ("", "")
    else
      let tag := keys.getLastD ""
      some (tag, ((assets.lookup tag).getD ""))

/-- `VersionsImpl.GetLatestReleaseURL` (lines 117–131). -/
def GetLatestReleaseURL (o : Options) (gh : Except GvmError (List Release))
    (constraint : String) : GoResult (String × String) :=
  match ListReleases o gh constraint with
  | Except.error e => GoResult.error e
  | Except.ok assets =>
    match getLatestFromCatalog assets with
    | none => GoResult.panicked
    | some p => GoResult.ok p

/-- `VersionsImpl.DownloadRelease` (lines 134–151).  `mkdirAll` and
`getAny` are the outcomes of the `os.MkdirAll` and `go-getter`
collaborators (`some e` meaning failure). -/
def DownloadRelease (o : Options) (mkdirAll : String → Option GvmError)
    (getAny : String → String → Option GvmError) (tag url : String) :
    Except GvmError String :=
  let dir := pathJoin o.ReleasesPath tag
  match mkdirAll dir with
  | some _ => Except.error GvmError.dirCreateError
  | none =>
    let tag2 := trimLeftV tag
    let fp := pathJoin dir (o.ExeNameFunc tag2 o.GOOS o.GOARCH)
    match getAny dir url with
    | some _ => Except.error GvmError.fetchError
    | none => Except.ok fp

/-- One installed directory entry's contribution (lines 172–173): record
`name ↦ releasesPath/name/ExeNameFunc(trimmed name, GOOS, GOARCH)`. -/
def installEntry (o : Options) (f : String) (versions : Catalog) : Catalog :=
  let tag := trimLeftV f
  mapInsert versions f
    (pathJoin (pathJoin o.ReleasesPath f) (o.ExeNameFunc tag o.GOOS o.GOARCH))

/-- The directory loop of `ListInstalledVersions` (lines 163–174): under a
non-empty constraint an `InRange` *error or* non-match both merely skip the
entry (`if err != nil || !valid { continue }`); the loop itself never
fails. -/
def listInstalledLoop (o : Options) (constraint : String) :
    List String → Catalog → Catalog
  | [], versions => versions
  | f :: rest, versions =>
    if constraint ≠ "" then
      match InRange f constraint with
      | Except.error _ => listInstalledLoop o constraint rest versions
      | Except.ok valid =>
        if !valid then listInstalledLoop o constraint rest versions
        else listInstalledLoop o constraint rest (installEntry o f versions)
    else listInstalledLoop o constraint rest (installEntry o f versions)

/-- `VersionsImpl.ListInstalledVersions` (lines 154–177).  `readDir` is the
outcome of the `ioutil.ReadDir` collaborator (the entry names); its failure
becomes a `ListError`. -/
def ListInstalledVersions (o : Options)
    (readDir : Except GvmError (List String)) (constraint : String) :
    Except GvmError Catalog :=
  match readDir with
  | Except.error _ => Except.error GvmError.listError
  | Except.ok files => Except.ok (listInstalledLoop o constraint files [])

/-- `VersionsImpl.GetInstalledVersion` (lines 179–193). -/
def GetInstalledVersion (o : Options)
    (readDir : Except GvmError (List String)) (constraint : String) :
    GoResult (String × String) :=
  match ListInstalledVersions o readDir constraint with
  | Except.error e => GoResult.error e
  | Except.ok assets =>
    match getLatestFromCatalog assets with
    | none => GoResult.panicked
    | some p => GoResult.ok p

/-- The asset-name test performed inside the asset loop: a case-insensitive
exact match between the asset's name and the filename computed by the
naming strategy from the `v`-stripped tag. -/
abbrev assetMatches (o : Options) (tagName : String) (a : Asset) : Prop :=
  toLower a.name = toLower (o.AssetNameFunc (trimLeftV tagName) o.GOOS o.GOARCH)

/-- A concrete `Options` value mirroring the repository's test setup
(`fake-service` with a linux naming strategy), used for concrete
evaluations. -/
def optsTest : Options :=
  ⟨"nicholasjackson", "fake-service", "linux", "x64",
    fun _ goos _ => if goos = "linux" then "fake-service-linux" else "",
    fun _ goos _ => if goos = "linux" then "fake-service-linux" else "",
    "/releases"⟩

/-- A concrete `Release` mirroring the repository's test data, used for
concrete evaluations. -/
def relTest : Release := ⟨"v0.14.1", [⟨"fake-service-linux", "u"⟩]⟩

/-- The string-level version order induced by parsing: `a` precedes `b`
when their parsed versions compare at most equal. -/
def semverLEStr (a b : String) : Prop :=
  ∀ va vb, parseVersion a = some va → parseVersion b = some vb →
    compareVersion va vb ≤ 0

/-! Order lemmas for the version comparison -/

theorem compareCharLists_neg (a b : List Char) :
    compareCharLists a b = -(compareCharLists b a) := by
  induction a generalizing b with
  | nil => cases b <;> simp [compareCharLists]
  | cons x xs ih =>
    cases b with
    | nil => simp [compareCharLists]
    | cons y ys =>
      simp only [compareCharLists]
      rcases lt_trichotomy x y with h | h | h
      · simp [h, not_lt_of_gt h]
      · simp [h, lt_irrefl, ih ys]
      · simp [h, not_lt_of_gt h]

theorem comparePrePart_zero_iff (s o : List Char) :
    comparePrePart s o = 0 ↔ s = o := by
  constructor
  · intro h
    by_contra hne
    unfold comparePrePart at h
    rw [if_neg hne] at h
    rcases hs : parseNatChars s with _ | sn <;>
      rcases ho : parseNatChars o with _ | om <;>
      rw [hs, ho] at h <;> dsimp only at h <;> split_ifs at h <;> omega
  · intro h; subst h; simp [comparePrePart]

theorem comparePrePart_pos_swap {s o : List Char}
    (h : 0 < comparePrePart s o) : comparePrePart o s = -1 := by
  have hne : s ≠ o := by
    intro he; rw [(comparePrePart_zero_iff s o).mpr he] at h; omega
  have hne' : o ≠ s := fun he => hne he.symm
  unfold comparePrePart at h ⊢
  rw [if_neg hne] at h
  rw [if_neg hne']
  by_cases hs : s = []
  · rw [if_pos hs] at h; exfalso; omega
  · rw [if_neg hs] at h
    by_cases ho : o = []
    · rw [if_pos ho]
    · rw [if_neg ho] at h
      rw [if_neg ho, if_neg hs]
      rcases hps : parseNatChars s with _ | sn <;>
        rcases hpo : parseNatChars o with _ | om <;>
        rw [hps, hpo] at h <;> dsimp only at h ⊢
      · split_ifs at h with hgt
        · have hccl := compareCharLists_neg o s
          rw [if_neg (by omega)]
        · exfalso; omega
      · exfalso; omega
      · split_ifs at h with hgt
        · rw [if_neg (by omega)]
        · exfalso; omega

theorem comparePreLists_pos_swap :
    ∀ {a b : List (List Char)}, 0 < comparePreLists a b →
      comparePreLists b a = -1 := by
  intro a
  induction a with
  | nil =>
    intro b
    induction b with
    | nil => intro h; simp [comparePreLists] at h
    | cons o os ih =>
      intro h
      rw [comparePreLists] at h
      rw [comparePreLists]
      by_cases h0 : comparePrePart [] o = 0
      · have h0' : comparePrePart o [] = 0 := by
          rw [(comparePrePart_zero_iff [] o).mp h0]
          simp [comparePrePart]
        rw [if_pos h0] at h
        rw [if_pos h0']
        exact ih h
      · rw [if_neg h0] at h
        have := comparePrePart_pos_swap h
        rw [if_neg (by omega), this]
  | cons s ss ih =>
    intro b
    cases b with
    | nil =>
      intro h
      rw [comparePreLists] at h
      rw [comparePreLists]
      by_cases h0 : comparePrePart s [] = 0
      · have h0' : comparePrePart [] s = 0 := by
          rw [← (comparePrePart_zero_iff s []).mp h0]
          simp [comparePrePart]
        rw [if_pos h0] at h
        rw [if_pos h0']
        exact ih h
      · rw [if_neg h0] at h
        have := comparePrePart_pos_swap h
        rw [if_neg (by omega), this]
    | cons o os =>
      intro h
      rw [comparePreLists] at h
      rw [comparePreLists]
      by_cases h0 : comparePrePart s o = 0
      · have h0' : comparePrePart o s = 0 := by
          rw [(comparePrePart_zero_iff s o).mp h0]
          simp [comparePrePart]
        rw [if_pos h0] at h
        rw [if_pos h0']
        exact ih h
      · rw [if_neg h0] at h
        have := comparePrePart_pos_swap h
        rw [if_neg (by omega), this]

theorem compareSegment_pos_swap {a b : Nat} (h : 0 < compareSegment a b) :
    compareSegment b a = -1 := by
  unfold compareSegment at h ⊢
  rcases Nat.lt_trichotomy a b with hl | he | hg
  · rw [if_pos hl] at h; exfalso; omega
  · subst he
    rw [if_neg (by omega : ¬ a < a), if_neg (by omega : ¬ a > a)] at h
    exfalso; omega
  · rw [if_pos hg]

theorem compareSegment_zero_iff (a b : Nat) :
    compareSegment a b = 0 ↔ a = b := by
  unfold compareSegment
  split_ifs with h1 h2
  · constructor <;> intro h
    · exact absurd h (by decide)
    · omega
  · constructor <;> intro h
    · exact absurd h (by decide)
    · omega
  · constructor <;> intro h
    · omega
    · rfl

theorem compareVersion_pos_swap {v o : SemVer}
    (h : 0 < compareVersion v o) : compareVersion o v = -1 := by
  unfold compareVersion at h ⊢
  by_cases h1 : compareSegment v.major o.major = 0
  · have h1' : compareSegment o.major v.major = 0 := by
      rw [compareSegment_zero_iff] at h1 ⊢; omega
    rw [if_neg (by omega : ¬ compareSegment v.major o.major ≠ 0)] at h
    rw [if_neg (by omega : ¬ compareSegment o.major v.major ≠ 0)]
    by_cases h2 : compareSegment v.minor o.minor = 0
    · have h2' : compareSegment o.minor v.minor = 0 := by
        rw [compareSegment_zero_iff] at h2 ⊢; omega
      rw [if_neg (by omega : ¬ compareSegment v.minor o.minor ≠ 0)] at h
      rw [if_neg (by omega : ¬ compareSegment o.minor v.minor ≠ 0)]
      by_cases h3 : compareSegment v.patch o.patch = 0
      · have h3' : compareSegment o.patch v.patch = 0 := by
          rw [compareSegment_zero_iff] at h3 ⊢; omega
        rw [if_neg (by omega : ¬ compareSegment v.patch o.patch ≠ 0)] at h
        rw [if_neg (by omega : ¬ compareSegment o.patch v.patch ≠ 0)]
        by_cases hv : v.pre = "" <;> by_cases hop : o.pre = ""
        · rw [if_pos hv, if_pos hop] at h; exfalso; omega
        · rw [if_pos hv, if_neg hop] at h
          rw [if_neg hop, if_pos hv]
        · rw [if_neg hv, if_pos hop] at h; exfalso; omega
        · rw [if_neg hv, if_neg hop] at h
          rw [if_neg hop, if_neg hv]
          exact comparePreLists_pos_swap h
      · rw [if_pos h3] at h
        rw [if_pos (by
          intro hz; rw [compareSegment_zero_iff] at hz h3; omega)]
        exact compareSegment_pos_swap h
    · rw [if_pos h2] at h
      rw [if_pos (by
        intro hz; rw [compareSegment_zero_iff] at hz h2; omega)]
      exact compareSegment_pos_swap h
  · rw [if_pos h1] at h
    rw [if_pos (by
      intro hz; rw [compareSegment_zero_iff] at hz h1; omega)]
    exact compareSegment_pos_swap h

/-- Totality of the version order: when `v` is not at most `o`, `o` is at
most `v`. -/
theorem compareVersion_total {v o : SemVer}
    (h : ¬ compareVersion v o ≤ 0) : compareVersion o v ≤ 0 := by
  have := compareVersion_pos_swap (o := o) (v := v) (by omega)
  omega

/-! Lemmas about the insertion sort -/

theorem mem_insertSorted {a x : SemVer} : ∀ {l : List SemVer},
    a ∈ insertSorted x l ↔ a = x ∨ a ∈ l := by
  intro l
  induction l with
  | nil => simp [insertSorted]
  | cons y ys ih =>
    unfold insertSorted
    split_ifs with hc <;> simp only [List.mem_cons, ih] <;> tauto

theorem length_insertSorted (x : SemVer) : ∀ (l : List SemVer),
    (insertSorted x l).length = l.length + 1 := by
  intro l
  induction l with
  | nil => rfl
  | cons y ys ih =>
    unfold insertSorted
    split_ifs with hc
    · rfl
    · simp only [List.length_cons, ih]

theorem mem_sortVersions {a : SemVer} {l : List SemVer} :
    a ∈ sortVersions l ↔ a ∈ l := by
  induction l with
  | nil => simp [sortVersions]
  | cons y ys ih =>
    show a ∈ insertSorted y (sortVersions ys) ↔ a ∈ y :: ys
    rw [mem_insertSorted, ih]
    simp [List.mem_cons]

theorem length_sortVersions (l : List SemVer) :
    (sortVersions l).length = l.length := by
  induction l with
  | nil => rfl
  | cons y ys ih =>
    show (insertSorted y (sortVersions ys)).length = ys.length + 1
    rw [length_insertSorted, ih]

theorem head?_insertSorted (x : SemVer) (l : List SemVer) :
    (insertSorted x l).head? = some x ∨ (insertSorted x l).head? = l.head? := by
  cases l with
  | nil => left; rfl
  | cons y ys =>
    unfold insertSorted
    split_ifs
    · left; rfl
    · right; rfl

theorem chain'_insertSorted (x : SemVer) {l : List SemVer}
    (h : List.Chain' (fun a b => compareVersion a b ≤ 0) l) :
    List.Chain' (fun a b => compareVersion a b ≤ 0) (insertSorted x l) := by
  induction l with
  | nil => simp [insertSorted]
  | cons y ys ih =>
    unfold insertSorted
    split_ifs with hc
    · exact h.cons hc
    · have hsplit := List.chain'_cons'.mp h
      refine List.chain'_cons'.mpr ⟨?_, ih hsplit.2⟩
      intro z hz
      rcases head?_insertSorted x ys with hh | hh
      · rw [hh] at hz
        simp only [Option.mem_def, Option.some_inj] at hz
        subst hz
        exact compareVersion_total hc
      · rw [hh] at hz
        exact hsplit.1 z hz

theorem chain'_sortVersions (l : List SemVer) :
    List.Chain' (fun a b => compareVersion a b ≤ 0) (sortVersions l) := by
  induction l with
  | nil => simp [sortVersions]
  | cons y ys ih => exact chain'_insertSorted y ih

/-! Lemmas about version parsing -/

theorem parseVersionAux_original {rest md : List Char} {orig : String}
    {v : SemVer} (h : parseVersionAux rest md orig = some v) :
    v.original = orig := by
  unfold parseVersionAux at h
  split at h
  · exact absurd h (by simp)
  · rcases Option.map_eq_some'.mp h with ⟨t, -, ht⟩
    rw [← ht]
  · split_ifs at h
    rcases Option.map_eq_some'.mp h with ⟨t, -, ht⟩
    rw [← ht]

theorem parseVersion_original {s : String} {v : SemVer}
    (h : parseVersion s = some v) : v.original = s := by
  unfold parseVersion at h
  split at h
  · exact parseVersionAux_original h
  · split_ifs at h
    exact parseVersionAux_original h
  · exact absurd h (by simp)

/-! Lemmas about `SortMapKeys` -/

theorem allSome_parse_some {m : Catalog}
    (h : ∀ k ∈ m.map Prod.fst, (parseVersion k).isSome) :
    ∃ vs : List SemVer,
      allSome (m.map (fun kv => parseVersion kv.1)) = some vs ∧
      vs.length = m.length ∧
      ∀ v ∈ vs, parseVersion v.original = some v ∧
        v.original ∈ m.map Prod.fst := by
  induction m with
  | nil => exact ⟨[], rfl, rfl, by simp⟩
  | cons kv rest ih =>
    have hk : (parseVersion kv.1).isSome := h kv.1 (by simp)
    rcases Option.isSome_iff_exists.mp hk with ⟨v, hv⟩
    have hrest : ∀ k ∈ rest.map Prod.fst, (parseVersion k).isSome := by
      intro k hk'
      exact h k (by simp [hk'])
    rcases ih hrest with ⟨vs, hvs, hlen, hall⟩
    refine ⟨v :: vs, ?_, by simp [hlen], ?_⟩
    · simp [allSome, hv, hvs]
    · intro w hw
      rcases List.mem_cons.mp hw with rfl | hw'
      · have horig := parseVersion_original hv
        rw [horig, hv]
        exact ⟨rfl, by simp⟩
      · rcases hall w hw' with ⟨h1, h2⟩
        exact ⟨h1, by simp [h2]⟩

theorem allSome_parse_none {m : Catalog}
    (h : ∃ k ∈ m.map Prod.fst, parseVersion k = none) :
    allSome (m.map (fun kv => parseVersion kv.1)) = none := by
  induction m with
  | nil => simp at h
  | cons kv rest ih =>
    rcases h with ⟨k, hk, hnone⟩
    simp only [List.map_cons, List.mem_cons] at hk
    rcases hk with rfl | hk'
    · simp [allSome, hnone]
    · have hrest := ih ⟨k, hk', hnone⟩
      cases hkv : parseVersion kv.1 <;> simp [allSome, hkv, hrest]

theorem sortMapKeys_of_all_parse {m : Catalog}
    (h : ∀ k ∈ m.map Prod.fst, (parseVersion k).isSome) :
    ∃ vs : List SemVer,
      vs.length = m.length ∧
      (∀ v ∈ vs, parseVersion v.original = some v ∧
        v.original ∈ m.map Prod.fst) ∧
      SortMapKeys m false = some ((sortVersions vs).map SemVer.original) ∧
      SortMapKeys m true =
        some (((sortVersions vs).map SemVer.original).reverse) := by
  rcases allSome_parse_some h with ⟨vs, hvs, hlen, hall⟩
  exact ⟨vs, hlen, hall, by simp [SortMapKeys, hvs], by simp [SortMapKeys, hvs]⟩

/-! Lemmas about catalog insertion and lookup -/

theorem mem_mapInsert {kv : String × String} {m : Catalog} {k v : String}
    (h : kv ∈ mapInsert m k v) : kv = (k, v) ∨ kv ∈ m := by
  unfold mapInsert at h
  split_ifs at h with hc
  · rcases List.mem_map.mp h with ⟨kv', hkv', heq⟩
    by_cases hk : kv'.1 = k
    · rw [if_pos hk] at heq
      exact Or.inl heq.symm
    · rw [if_neg hk] at heq
      exact Or.inr (heq ▸ hkv')
  · rcases List.mem_append.mp h with h' | h'
    · exact Or.inr h'
    · simp only [List.mem_singleton] at h'
      exact Or.inl h'

theorem keys_mapInsert_self (m : Catalog) (k v : String) :
    k ∈ (mapInsert m k v).map Prod.fst := by
  unfold mapInsert
  split_ifs with hc
  · rcases List.any_eq_true.mp hc with ⟨kv', hkv', hk⟩
    have hk' : kv'.1 = k := of_decide_eq_true hk
    exact List.mem_map.mpr ⟨(k, v),
      List.mem_map.mpr ⟨kv', hkv', by rw [if_pos hk']⟩, rfl⟩
  · simp

theorem keys_mapInsert_mono {m : Catalog} {q k v : String}
    (h : q ∈ m.map Prod.fst) : q ∈ (mapInsert m k v).map Prod.fst := by
  unfold mapInsert
  split_ifs with hc
  · rcases List.mem_map.mp h with ⟨kv', hkv', hq⟩
    by_cases hk : kv'.1 = k
    · exact List.mem_map.mpr ⟨(k, v),
        List.mem_map.mpr ⟨kv', hkv', by rw [if_pos hk]⟩, by rw [← hq, hk]⟩
    · exact List.mem_map.mpr ⟨kv',
        List.mem_map.mpr ⟨kv', hkv', by rw [if_neg hk]⟩, hq⟩
  · rw [List.map_append, List.mem_append]
    exact Or.inl h

theorem lookup_of_mem_keys {m : Catalog} {k : String}
    (h : k ∈ m.map Prod.fst) : ∃ u, m.lookup k = some u := by
  induction m with
  | nil => simp at h
  | cons kv rest ih =>
    rcases kv with ⟨k1, v1⟩
    by_cases hk : k = k1
    · exact ⟨v1, by simp [List.lookup, hk]⟩
    · simp only [List.map_cons, List.mem_cons] at h
      rcases h with h | h
      · exact absurd h hk
      · rcases ih h with ⟨u, hu⟩
        have hb : (k == k1) = false := beq_eq_false_iff_ne.mpr hk
        exact ⟨u, by simp [List.lookup, hb, hu]⟩

/-! Lemmas about the asset scan -/

theorem findAssetURL_first {o : Options} {t : String} :
    ∀ {pre : List Asset} {l post : List Asset} {a : Asset},
      l = pre ++ a :: post →
      (∀ b ∈ pre, ¬ assetMatches o t b) → assetMatches o t a →
      findAssetURL o t l = some a.browserDownloadURL := by
  intro pre
  induction pre with
  | nil =>
    intro l post a hl hpre ha
    subst hl
    simp only [List.nil_append, findAssetURL]
    rw [if_pos ha]
  | cons b bs ih =>
    intro l post a hl hpre ha
    subst hl
    simp only [List.cons_append, findAssetURL]
    rw [if_neg (hpre b (by simp))]
    exact ih rfl (fun x hx => hpre x (by simp [hx])) ha

theorem findAssetURL_none {o : Options} {t : String} :
    ∀ {l : List Asset}, (∀ b ∈ l, ¬ assetMatches o t b) →
      findAssetURL o t l = none := by
  intro l
  induction l with
  | nil => intro _; rfl
  | cons b bs ih =>
    intro h
    simp only [findAssetURL]
    rw [if_neg (h b (by simp))]
    exact ih fun x hx => h x (by simp [hx])

theorem findAssetURL_some_spec {o : Options} {t : String} :
    ∀ {l : List Asset} {u : String}, findAssetURL o t l = some u →
      ∃ a ∈ l, assetMatches o t a ∧ u = a.browserDownloadURL := by
  intro l
  induction l with
  | nil =>
    intro u h
    exact absurd h (by simp [findAssetURL])
  | cons b bs ih =>
    intro u h
    simp only [findAssetURL] at h
    split_ifs at h with hm
    · exact ⟨b, by simp, hm, (Option.some_inj.mp h).symm⟩
    · rcases ih h with ⟨a, ha, hma, hu⟩
      exact ⟨a, by simp [ha], hma, hu⟩

theorem findAssetURL_isSome {o : Options} {t : String} {l : List Asset}
    (h : ∃ a ∈ l, assetMatches o t a) : (findAssetURL o t l).isSome := by
  induction l with
  | nil => simp at h
  | cons b bs ih =>
    simp only [findAssetURL]
    split_ifs with hm
    · rfl
    · rcases h with ⟨a, ha, hma⟩
      rcases List.mem_cons.mp ha with rfl | ha'
      · exact absurd hma hm
      · exact ih ⟨a, ha', hma⟩

theorem mem_releaseScan {o : Options} {g : Release} {acc : Catalog}
    {kv : String × String} (h : kv ∈ releaseScan o g acc) :
    kv ∈ acc ∨ (kv.1 = g.tagName ∧
      findAssetURL o g.tagName g.assets = some kv.2) := by
  unfold releaseScan at h
  rcases hf : findAssetURL o g.tagName g.assets with _ | url <;> rw [hf] at h
  · exact Or.inl h
  · rcases mem_mapInsert h with rfl | hin
    · exact Or.inr ⟨rfl, by simpa using hf⟩
    · exact Or.inl hin

theorem keys_releaseScan_mono {o : Options} {g : Release} {acc : Catalog}
    {q : String} (h : q ∈ acc.map Prod.fst) :
    q ∈ (releaseScan o g acc).map Prod.fst := by
  unfold releaseScan
  rcases hf : findAssetURL o g.tagName g.assets with _ | url
  · exact h
  · exact keys_mapInsert_mono h

theorem mem_installEntry {o : Options} {f : String} {acc : Catalog}
    {kv : String × String} (h : kv ∈ installEntry o f acc) :
    kv ∈ acc ∨ kv = (f, pathJoin (pathJoin o.ReleasesPath f)
      (o.ExeNameFunc (trimLeftV f) o.GOOS o.GOARCH)) := by
  unfold installEntry at h
  rcases mem_mapInsert h with h' | h'
  · exact Or.inr h'
  · exact Or.inl h'

/-! Lemmas about the resolver loops -/

theorem listReleasesLoop_empty_constraint (o : Options) :
    ∀ (gr : List Release) (acc : Catalog),
      listReleasesLoop o "" gr acc =
        Except.ok (gr.foldl (fun t g => releaseScan o g t) acc) := by
  intro gr
  induction gr with
  | nil => intro acc; rfl
  | cons g rest ih =>
    intro acc
    simp only [listReleasesLoop]
    rw [if_neg (by simp)]
    exact ih (releaseScan o g acc)

theorem listInstalledLoop_empty_constraint (o : Options) :
    ∀ (files : List String) (acc : Catalog),
      listInstalledLoop o "" files acc =
        files.foldl (fun t f => installEntry o f t) acc := by
  intro files
  induction files with
  | nil => intro acc; rfl
  | cons f rest ih =>
    intro acc
    simp only [listInstalledLoop]
    rw [if_neg (by simp)]
    exact ih (installEntry o f acc)

theorem listInstalledLoop_malformed (o : Options) {constraint : String}
    (hbad : parseConstraint constraint = none) (hne : constraint ≠ "") :
    ∀ (files : List String) (acc : Catalog),
      listInstalledLoop o constraint files acc = acc := by
  intro files
  induction files with
  | nil => intro acc; rfl
  | cons f rest ih =>
    intro acc
    simp only [listInstalledLoop]
    rw [if_pos hne]
    have hir : InRange f constraint = Except.error GvmError.invalidConstraint := by
      unfold InRange
      rw [hbad]
    rw [hir]
    exact ih acc

theorem listReleasesLoop_mem {o : Options} {c : String} :
    ∀ {gr : List Release} {acc m : Catalog},
      listReleasesLoop o c gr acc = Except.ok m →
      ∀ kv ∈ m, kv ∈ acc ∨ ∃ g ∈ gr, kv.1 = g.tagName ∧
        findAssetURL o g.tagName g.assets = some kv.2 := by
  intro gr
  induction gr with
  | nil =>
    intro acc m h kv hkv
    simp only [listReleasesLoop, Except.ok.injEq] at h
    subst h
    exact Or.inl hkv
  | cons g rest ih =>
    intro acc m h kv hkv
    have weaken :
        kv ∈ acc ∨ (kv.1 = g.tagName ∧
          findAssetURL o g.tagName g.assets = some kv.2) →
        kv ∈ acc ∨ ∃ g' ∈ g :: rest, kv.1 = g'.tagName ∧
          findAssetURL o g'.tagName g'.assets = some kv.2 := by
      intro hd
      rcases hd with hd | hd
      · exact Or.inl hd
      · exact Or.inr ⟨g, by simp, hd.1, hd.2⟩
    have step : ∀ {acc' : Catalog},
        listReleasesLoop o c rest acc' = Except.ok m →
        kv ∈ acc' ∨ ∃ g' ∈ g :: rest, kv.1 = g'.tagName ∧
          findAssetURL o g'.tagName g'.assets = some kv.2 := by
      intro acc' h'
      rcases ih h' kv hkv with hin | ⟨g', hg', h1, h2⟩
      · exact Or.inl hin
      · exact Or.inr ⟨g', by simp [hg'], h1, h2⟩
    simp only [listReleasesLoop] at h
    split_ifs at h with hc
    · rcases hir : InRange g.tagName c with e | valid <;> rw [hir] at h <;>
        dsimp only at h
      · exact absurd h (by simp)
      · split_ifs at h with hv
        · exact step h
        · rcases step h with hin | hrest
          · exact weaken (mem_releaseScan hin)
          · exact Or.inr hrest
    · rcases step h with hin | hrest
      · exact weaken (mem_releaseScan hin)
      · exact Or.inr hrest

theorem listInstalledLoop_mem {o : Options} {c : String} :
    ∀ {files : List String} {acc m : Catalog},
      listInstalledLoop o c files acc = m →
      ∀ kv ∈ m, kv ∈ acc ∨ (kv.1 ∈ files ∧
        kv.2 = pathJoin (pathJoin o.ReleasesPath kv.1)
          (o.ExeNameFunc (trimLeftV kv.1) o.GOOS o.GOARCH)) := by
  intro files
  induction files with
  | nil =>
    intro acc m h kv hkv
    subst h
    exact Or.inl hkv
  | cons f rest ih =>
    intro acc m h kv hkv
    have step : ∀ {acc' : Catalog},
        listInstalledLoop o c rest acc' = m →
        (kv ∈ acc' ∨ (kv.1 ∈ f :: rest ∧
          kv.2 = pathJoin (pathJoin o.ReleasesPath kv.1)
            (o.ExeNameFunc (trimLeftV kv.1) o.GOOS o.GOARCH))) := by
      intro acc' h'
      rcases ih h' kv hkv with hin | ⟨h1, h2⟩
      · exact Or.inl hin
      · exact Or.inr ⟨by simp [h1], h2⟩
    have scanCase : ∀ {acc' : Catalog},
        listInstalledLoop o c rest (installEntry o f acc') = m →
        (kv ∈ acc' ∨ (kv.1 ∈ f :: rest ∧
          kv.2 = pathJoin (pathJoin o.ReleasesPath kv.1)
            (o.ExeNameFunc (trimLeftV kv.1) o.GOOS o.GOARCH))) := by
      intro acc' h'
      rcases step h' with hin | hdone
      · rcases mem_installEntry hin with hin' | rfl
        · exact Or.inl hin'
        · exact Or.inr ⟨by simp, rfl⟩
      · exact Or.inr hdone
    simp only [listInstalledLoop] at h
    split_ifs at h with hc
    · rcases hir : InRange f c with e | valid <;> rw [hir] at h <;>
        dsimp only at h
      · exact step h
      · split_ifs at h with hv
        · exact step h
        · exact scanCase h
    · exact scanCase h

theorem keys_foldl_releaseScan {o : Options} :
    ∀ {gr : List Release} {acc : Catalog} {q : String},
      q ∈ acc.map Prod.fst →
      q ∈ (gr.foldl (fun t g => releaseScan o g t) acc).map Prod.fst := by
  intro gr
  induction gr with
  | nil => intro acc q h; exact h
  | cons g rest ih => intro acc q h; exact ih (keys_releaseScan_mono h)

theorem key_in_foldl_releaseScan {o : Options} {g : Release}
    (hmatch : ∃ a ∈ g.assets, assetMatches o g.tagName a) :
    ∀ {gr : List Release} {acc : Catalog}, g ∈ gr →
      g.tagName ∈ (gr.foldl (fun t g => releaseScan o g t) acc).map Prod.fst := by
  intro gr
  induction gr with
  | nil => intro acc h; simp at h
  | cons g' rest ih =>
    intro acc hg
    rcases List.mem_cons.mp hg with rfl | hg'
    · rw [List.foldl_cons]
      apply keys_foldl_releaseScan
      have hs := findAssetURL_isSome hmatch
      rcases Option.isSome_iff_exists.mp hs with ⟨u, hu⟩
      unfold releaseScan
      rw [hu]
      exact keys_mapInsert_self _ _ _
    · exact ih hg'

theorem keys_foldl_installEntry {o : Options} :
    ∀ {files : List String} {acc : Catalog} {q : String},
      q ∈ acc.map Prod.fst →
      q ∈ (files.foldl (fun t f => installEntry o f t) acc).map Prod.fst := by
  intro files
  induction files with
  | nil => intro acc q h; exact h
  | cons f rest ih =>
    intro acc q h
    exact ih (keys_mapInsert_mono h)

theorem key_in_foldl_installEntry {o : Options} {f : String} :
    ∀ {files : List String} {acc : Catalog}, f ∈ files →
      f ∈ (files.foldl (fun t f => installEntry o f t) acc).map Prod.fst := by
  intro files
  induction files with
  | nil => intro acc h; simp at h
  | cons f' rest ih =>
    intro acc hf
    rcases List.mem_cons.mp hf with rfl | hf'
    · rw [List.foldl_cons]
      apply keys_foldl_installEntry
      exact keys_mapInsert_self _ _ _
    · exact ih hf'

/-! Claim theorems -/

/-- C1: the claim (and the code's own doc comment and spec §4.2) says a
release whose tag is not a valid semantic version is silently omitted under
a valid non-empty constraint.  The code instead propagates the `InRange`
version-parse error and fails the whole call: at a release list headed by
tag `latest` (with a matching asset) followed by `v0.12.2`, under the valid
constraint `~0.12.0`, `ListReleases` returns an `InvalidVersion` error
instead of the catalog containing `v0.12.2`. -/
theorem claim1_nonsemver_tag_fails_whole_listReleases :
    ListReleases optsTest (Except.ok
      [⟨"latest", [⟨"fake-service-linux", "https://example.com/latest"⟩]⟩,
       ⟨"v0.12.2", [⟨"fake-service-linux", "https://example.com/v0.12.2"⟩]⟩])
      "~0.12.0" = Except.error GvmError.invalidVersion := by
  rfl

/-- C2 counterexample: with one installed directory entry and the malformed
constraint `abd`, `ListInstalledVersions` does not fail with an
`InvalidConstraint` error for the whole call — it returns a result, the
empty catalog, with nil error. -/
theorem claim2_counterexample :
    ListInstalledVersions optsTest (Except.ok ["v0.14.1"]) "abd" =
      Except.ok [] := by
  rfl

/-- C2 (amended): for every installed listing and every syntactically
malformed non-empty constraint, `ListInstalledVersions` does not fail: the
per-entry constraint-check error is treated as a non-match
(`if err != nil || !valid { continue }`), every entry is skipped, and the
call returns the empty catalog with nil error — unlike remote resolution,
which fails the whole call. -/
theorem claim2_installed_malformed_constraint_yields_empty_ok
    (o : Options) (files : List String) (constraint : String)
    (hbad : parseConstraint constraint = none) (hne : constraint ≠ "") :
    ListInstalledVersions o (Except.ok files) constraint = Except.ok [] := by
  unfold ListInstalledVersions
  dsimp only
  rw [listInstalledLoop_malformed o hbad hne files []]

theorem claim2_witness :
    ListInstalledVersions optsTest (Except.ok ["v0.14.1", "v0.14.2"]) "abd" =
      Except.ok [] :=
  claim2_installed_malformed_constraint_yields_empty_ok optsTest
    ["v0.14.1", "v0.14.2"] "abd" (by rfl) (by decide)

/-- C3 counterexample: a mapping with the un-parseable key `latest` is not
sorted with the key silently dropped — `SortMapKeys` panics (the nil
`*semver.Version` appended to the collection is dereferenced by the sort /
`Original()` rendering), modelled as `none`. -/
theorem claim3_counterexample :
    SortMapKeys [("latest", "x")] false = none := by
  rfl

/-- C3 (amended): `SortMapKeys` is total only on mappings whose keys all
parse as semantic versions; an un-parseable key is not dropped but causes a
runtime panic (`none`), and when every key parses the call returns a
sorted key list. -/
theorem claim3_sortMapKeys_panics_unless_all_keys_parse
    (m : Catalog) (descending : Bool) :
    ((∀ k ∈ m.map Prod.fst, (parseVersion k).isSome) →
      (SortMapKeys m descending).isSome) ∧
    ((∃ k ∈ m.map Prod.fst, parseVersion k = none) →
      SortMapKeys m descending = none) := by
  constructor
  · intro h
    rcases allSome_parse_some h with ⟨vs, hvs, -, -⟩
    cases descending <;> simp [SortMapKeys, hvs]
  · intro h
    simp [SortMapKeys, allSome_parse_none h]

theorem claim3_witness :
    (SortMapKeys [("v1.0.0", "a"), ("0.9.0", "b")] true).isSome ∧
    SortMapKeys [("v1.0.0", "a"), ("latest", "b")] false = none :=
  ⟨(claim3_sortMapKeys_panics_unless_all_keys_parse
      [("v1.0.0", "a"), ("0.9.0", "b")] true).1 (by decide),
   (claim3_sortMapKeys_panics_unless_all_keys_parse
      [("v1.0.0", "a"), ("latest", "b")] false).2
      ⟨"latest", by simp, by rfl⟩⟩

/-- C8: when the resolved catalog is empty, `GetLatestReleaseURL` and
`GetInstalledVersion` both return the no-result pair (empty tag, empty
location) with nil error, not an error. -/
theorem claim8_empty_catalog_no_result (o : Options)
    (gh : Except GvmError (List Release))
    (rd : Except GvmError (List String)) (c c' : String)
    (h1 : ListReleases o gh c = Except.ok [])
    (h2 : ListInstalledVersions o rd c' = Except.ok []) :
    GetLatestReleaseURL o gh c = GoResult.ok ("", "") ∧
    GetInstalledVersion o rd c' = GoResult.ok ("", "") := by
  constructor
  · unfold GetLatestReleaseURL
    rw [h1]
    rfl
  · unfold GetInstalledVersion
    rw [h2]
    rfl

theorem claim8_witness :
    GetLatestReleaseURL optsTest
      (Except.ok [⟨"v0.12.2", [⟨"fake-service-linux", "u"⟩]⟩]) "~1.0.0" =
        GoResult.ok ("", "") ∧
    GetInstalledVersion optsTest (Except.ok []) "" = GoResult.ok ("", "") :=
  claim8_empty_catalog_no_result optsTest
    (Except.ok [⟨"v0.12.2", [⟨"fake-service-linux", "u"⟩]⟩])
    (Except.ok []) "~1.0.0" "" (by rfl) (by rfl)

/-- C9: `DownloadRelease` first creates `releasesPath/tag`, failing with a
directory-creation error when that is impossible while never consulting the
fetcher's outcome; otherwise it delegates to the fetcher once, surfaces a
fetch failure immediately, and on success returns the computed path
`join(releasesPath, tag, ExeNameFunc(strippedTag, GOOS, GOARCH))` with no
check that a file exists there. -/
theorem claim9_downloadRelease_contract (o : Options)
    (mk : String → Option GvmError) (ga : String → String → Option GvmError)
    (tag url : String) :
    (∀ e, mk (pathJoin o.ReleasesPath tag) = some e →
      DownloadRelease o mk ga tag url = Except.error GvmError.dirCreateError) ∧
    (mk (pathJoin o.ReleasesPath tag) = none →
      ∀ e, ga (pathJoin o.ReleasesPath tag) url = some e →
        DownloadRelease o mk ga tag url = Except.error GvmError.fetchError) ∧
    (mk (pathJoin o.ReleasesPath tag) = none →
      ga (pathJoin o.ReleasesPath tag) url = none →
      DownloadRelease o mk ga tag url = Except.ok
        (pathJoin (pathJoin o.ReleasesPath tag)
          (o.ExeNameFunc (trimLeftV tag) o.GOOS o.GOARCH))) := by
  refine ⟨?_, ?_, ?_⟩
  · intro e he
    simp only [DownloadRelease]
    rw [he]
  · intro hmk e hga
    simp only [DownloadRelease]
    rw [hmk, hga]
  · intro hmk hga
    simp only [DownloadRelease]
    rw [hmk, hga]

theorem claim9_witness :
    DownloadRelease optsTest (fun _ => some GvmError.dirCreateError)
      (fun _ _ => none) "v0.1.0" "u" = Except.error GvmError.dirCreateError ∧
    DownloadRelease optsTest (fun _ => none)
      (fun _ _ => some GvmError.fetchError) "v0.1.0" "u" =
        Except.error GvmError.fetchError ∧
    DownloadRelease optsTest (fun _ => none) (fun _ _ => none) "v0.1.0" "u" =
      Except.ok (pathJoin (pathJoin optsTest.ReleasesPath "v0.1.0")
        (optsTest.ExeNameFunc (trimLeftV "v0.1.0")
          optsTest.GOOS optsTest.GOARCH)) :=
  ⟨(claim9_downloadRelease_contract optsTest _ _ "v0.1.0" "u").1
      GvmError.dirCreateError rfl,
   (claim9_downloadRelease_contract optsTest _ _ "v0.1.0" "u").2.1 rfl
      GvmError.fetchError rfl,
   (claim9_downloadRelease_contract optsTest _ _ "v0.1.0" "u").2.2 rfl rfl⟩

/-- Strengthen an adjacent chain using a predicate that holds for every
element of the list. -/
theorem chain'_imp_mem {α : Type} {R S : α → α → Prop} (P : α → Prop) :
    ∀ {l : List α}, List.Chain' R l → (∀ a ∈ l, P a) →
      (∀ a b, P a → P b → R a b → S a b) → List.Chain' S l := by
  intro l
  induction l with
  | nil => intro _ _ _; exact List.chain'_nil
  | cons x xs ih =>
    intro hc hp himp
    rcases List.chain'_cons'.mp hc with ⟨hhead, htail⟩
    refine List.chain'_cons'.mpr
      ⟨?_, ih htail (fun a ha => hp a (by simp [ha])) himp⟩
    intro y hy
    have hyx : y ∈ xs := List.mem_of_mem_head? hy
    exact himp x y (hp x (by simp)) (hp y (by simp [hyx])) (hhead y hy)

/-- C4: for every non-empty catalog whose keys are all valid semantic
versions, the shared latest-selection logic of `GetLatestReleaseURL` and
`GetInstalledVersion` returns a tag that is byte-identical to one of the
catalog's original keys (no normalized re-rendering) and the location
stored in the catalog under exactly that key. -/
theorem claim4_latest_tag_is_original_key (m : Catalog) (hne : m ≠ [])
    (h : ∀ k ∈ m.map Prod.fst, (parseVersion k).isSome) :
    ∃ t u, getLatestFromCatalog m = some (t, u) ∧
      t ∈ m.map Prod.fst ∧ m.lookup t = some u := by
  rcases sortMapKeys_of_all_parse h with ⟨vs, hlen, hall, hfalse, -⟩
  set keys := (sortVersions vs).map SemVer.original with hkeys
  have hkeysne : keys ≠ [] := by
    intro hnil
    have h1 : sortVersions vs = [] := List.map_eq_nil.mp hnil
    have h2 : vs.length = 0 := by rw [← length_sortVersions, h1]; rfl
    rw [hlen] at h2
    exact hne (List.length_eq_zero.mp h2)
  have hlast : keys.getLastD "" = keys.getLast hkeysne := by
    rw [List.getLastD_eq_getLast?, List.getLast?_eq_getLast keys hkeysne]
    rfl
  have htmem : keys.getLast hkeysne ∈ keys := List.getLast_mem hkeysne
  rcases List.mem_map.mp htmem with ⟨w, hw, hwt⟩
  have hworig := (hall w (mem_sortVersions.mp hw)).2
  rw [hwt] at hworig
  rcases lookup_of_mem_keys hworig with ⟨u, hu⟩
  refine ⟨keys.getLast hkeysne, u, ?_, hworig, hu⟩
  unfold getLatestFromCatalog
  rw [hfalse]
  dsimp only
  rw [if_neg (fun hz => hkeysne (List.length_eq_zero.mp hz))]
  rw [hlast, hu]
  rfl

theorem claim4_witness :
    ∃ t u,
      getLatestFromCatalog [("v0.12.2", "a"), ("v0.13.0-beta", "b")] =
        some (t, u) ∧
      t ∈ ([("v0.12.2", "a"), ("v0.13.0-beta", "b")] : Catalog).map Prod.fst ∧
      ([("v0.12.2", "a"), ("v0.13.0-beta", "b")] : Catalog).lookup t = some u :=
  claim4_latest_tag_is_original_key [("v0.12.2", "a"), ("v0.13.0-beta", "b")]
    (by decide) (by decide)

/-- C5: for a release that passes the constraint filter, its assets are
scanned in the supplied order for a case-insensitive exact match with the
filename computed by the naming strategy; the first matching asset's
download URL is recorded under the release's tag and scanning stops, and a
release with no matching asset contributes no catalog entry. -/
theorem claim5_first_matching_asset_wins (o : Options) (g : Release) :
    (∀ pre a post, g.assets = pre ++ a :: post →
      (∀ b ∈ pre, ¬ assetMatches o g.tagName b) →
      assetMatches o g.tagName a →
      findAssetURL o g.tagName g.assets = some a.browserDownloadURL ∧
      ∀ tags, releaseScan o g tags =
        mapInsert tags g.tagName a.browserDownloadURL) ∧
    ((∀ b ∈ g.assets, ¬ assetMatches o g.tagName b) →
      ∀ tags, releaseScan o g tags = tags) := by
  constructor
  · intro pre a post hl hpre ha
    have hf := findAssetURL_first hl hpre ha
    refine ⟨hf, ?_⟩
    intro tags
    unfold releaseScan
    rw [hf]
  · intro hnone tags
    unfold releaseScan
    rw [findAssetURL_none hnone]

theorem claim5_witness :
    findAssetURL optsTest "v0.14.1"
      [⟨"OTHER", "u0"⟩, ⟨"Fake-Service-Linux", "u1"⟩,
       ⟨"fake-service-linux", "u2"⟩] = some "u1" ∧
    releaseScan optsTest
      ⟨"v0.14.1", [⟨"OTHER", "u0"⟩, ⟨"Fake-Service-Linux", "u1"⟩,
        ⟨"fake-service-linux", "u2"⟩]⟩ [] =
      mapInsert [] "v0.14.1" "u1" := by
  have h := (claim5_first_matching_asset_wins optsTest
    ⟨"v0.14.1", [⟨"OTHER", "u0"⟩, ⟨"Fake-Service-Linux", "u1"⟩,
      ⟨"fake-service-linux", "u2"⟩]⟩).1
    [⟨"OTHER", "u0"⟩] ⟨"Fake-Service-Linux", "u1"⟩
    [⟨"fake-service-linux", "u2"⟩] rfl (by decide) (by decide)
  exact ⟨h.1, h.2 []⟩

/-- C7: for every mapping whose keys all parse as semantic versions, the
descending sort is the exact reverse of the ascending sort of the same
mapping, and the ascending sort is ordered by standard semantic-version
precedence (adjacent keys compare at most equal as parsed versions). -/
theorem claim7_sort_reverse_and_ascending (m : Catalog)
    (h : ∀ k ∈ m.map Prod.fst, (parseVersion k).isSome) :
    SortMapKeys m true = (SortMapKeys m false).map List.reverse ∧
    ∀ asc, SortMapKeys m false = some asc → List.Chain' semverLEStr asc := by
  rcases sortMapKeys_of_all_parse h with ⟨vs, -, hall, hfalse, htrue⟩
  constructor
  · rw [hfalse, htrue]
    rfl
  · intro asc hasc
    rw [hfalse] at hasc
    have hasc' : asc = (sortVersions vs).map SemVer.original :=
      (Option.some_inj.mp hasc).symm
    subst hasc'
    rw [List.chain'_map]
    refine chain'_imp_mem (fun v => parseVersion v.original = some v)
      (chain'_sortVersions vs) ?_ ?_
    · intro v hv
      exact (hall v (mem_sortVersions.mp hv)).1
    · intro a b hpa hpb hab va vb hva hvb
      rw [hpa] at hva
      rw [hpb] at hvb
      cases Option.some_inj.mp hva
      cases Option.some_inj.mp hvb
      exact hab

theorem claim7_witness :
    (SortMapKeys
        [("v0.12.2", "a"), ("v0.13.0-beta", "b"), ("0.12.10", "c")] true =
      (SortMapKeys
        [("v0.12.2", "a"), ("v0.13.0-beta", "b"), ("0.12.10", "c")] false).map
        List.reverse) ∧
    ∀ asc, SortMapKeys
        [("v0.12.2", "a"), ("v0.13.0-beta", "b"), ("0.12.10", "c")] false =
        some asc → List.Chain' semverLEStr asc :=
  claim7_sort_reverse_and_ascending
    [("v0.12.2", "a"), ("v0.13.0-beta", "b"), ("0.12.10", "c")] (by decide)

/-- C6: catalog keys (and the download destination directory component)
carry the tag exactly as published, leading `v` included, while the
naming-strategy functions receive the tag with its leading `v` stripped:
every remote catalog entry's key is a release tag verbatim and its asset
matched `AssetNameFunc` applied to the stripped tag; every installed entry
maps the verbatim directory name to a path built from `ExeNameFunc` of the
stripped name; and `DownloadRelease` returns a path rooted at the verbatim
tag directory with `ExeNameFunc` of the stripped tag as filename. -/
theorem claim6_vprefix_preserved_in_keys_stripped_for_strategy :
    (∀ (o : Options) (gr : List Release) (constraint : String) (m : Catalog),
      ListReleases o (Except.ok gr) constraint = Except.ok m →
      ∀ kv ∈ m, ∃ g ∈ gr, kv.1 = g.tagName ∧
        ∃ a ∈ g.assets, toLower a.name =
          toLower (o.AssetNameFunc (trimLeftV kv.1) o.GOOS o.GOARCH) ∧
          kv.2 = a.browserDownloadURL) ∧
    (∀ (o : Options) (files : List String) (constraint : String)
      (m : Catalog),
      ListInstalledVersions o (Except.ok files) constraint = Except.ok m →
      ∀ kv ∈ m, kv.1 ∈ files ∧
        kv.2 = pathJoin (pathJoin o.ReleasesPath kv.1)
          (o.ExeNameFunc (trimLeftV kv.1) o.GOOS o.GOARCH)) ∧
    (∀ (o : Options) (mk : String → Option GvmError)
      (ga : String → String → Option GvmError) (tag url fp : String),
      DownloadRelease o mk ga tag url = Except.ok fp →
      fp = pathJoin (pathJoin o.ReleasesPath tag)
        (o.ExeNameFunc (trimLeftV tag) o.GOOS o.GOARCH)) := by
  refine ⟨?_, ?_, ?_⟩
  · intro o gr constraint m h kv hkv
    have hloop : listReleasesLoop o constraint gr [] = Except.ok m := h
    rcases listReleasesLoop_mem hloop kv hkv with hin | ⟨g, hg, h1, h2⟩
    · simp at hin
    · rcases findAssetURL_some_spec h2 with ⟨a, ha, hma, hu⟩
      refine ⟨g, hg, h1, a, ha, ?_, hu⟩
      rw [h1]
      exact hma
  · intro o files constraint m h kv hkv
    have hloop : listInstalledLoop o constraint files [] = m := Except.ok.inj h
    rcases listInstalledLoop_mem hloop kv hkv with hin | hdone
    · simp at hin
    · exact hdone
  · intro o mk ga tag url fp h
    simp only [DownloadRelease] at h
    rcases hmk : mk (pathJoin o.ReleasesPath tag) with _ | e <;>
      rw [hmk] at h <;> dsimp only at h
    · rcases hga : ga (pathJoin o.ReleasesPath tag) url with _ | e' <;>
        rw [hga] at h <;> dsimp only at h
      · exact (Except.ok.inj h).symm
      · exact absurd h (by simp)
    · exact absurd h (by simp)

theorem claim6_witness :
    (∃ g ∈ [relTest], (("v0.14.1", "u") : String × String).1 = g.tagName ∧
      ∃ a ∈ g.assets, toLower a.name =
        toLower (optsTest.AssetNameFunc
          (trimLeftV (("v0.14.1", "u") : String × String).1)
          optsTest.GOOS optsTest.GOARCH) ∧
        (("v0.14.1", "u") : String × String).2 = a.browserDownloadURL) ∧
    ((("v0.14.1", "/releases/v0.14.1/fake-service-linux") :
        String × String).1 ∈ ["v0.14.1"] ∧
      (("v0.14.1", "/releases/v0.14.1/fake-service-linux") :
        String × String).2 =
        pathJoin (pathJoin optsTest.ReleasesPath
          (("v0.14.1", "/releases/v0.14.1/fake-service-linux") :
            String × String).1)
          (optsTest.ExeNameFunc
            (trimLeftV (("v0.14.1", "/releases/v0.14.1/fake-service-linux") :
              String × String).1)
            optsTest.GOOS optsTest.GOARCH)) ∧
    ("/releases/v0.14.1/fake-service-linux" =
      pathJoin (pathJoin optsTest.ReleasesPath "v0.14.1")
        (optsTest.ExeNameFunc (trimLeftV "v0.14.1")
          optsTest.GOOS optsTest.GOARCH)) := by
  have hr := claim6_vprefix_preserved_in_keys_stripped_for_strategy
  refine ⟨?_, ?_, ?_⟩
  · exact hr.1 optsTest [relTest] "" [("v0.14.1", "u")] rfl
      ("v0.14.1", "u") (by simp)
  · exact hr.2.1 optsTest ["v0.14.1"] ""
      [("v0.14.1", "/releases/v0.14.1/fake-service-linux")] rfl
      ("v0.14.1", "/releases/v0.14.1/fake-service-linux") (by simp)
  · exact hr.2.2 optsTest (fun _ => none) (fun _ _ => none) "v0.14.1" "u"
      "/releases/v0.14.1/fake-service-linux" rfl

/-- C10: with the empty constraint no semantic-version validation happens
at all: a release whose tag does not parse as a version is still catalogued
whenever a matching asset exists, and an installed directory entry whose
name does not parse is always catalogued, so unconstrained catalogs may
contain non-semver keys. -/
theorem claim10_empty_constraint_no_validation :
    (∀ (o : Options) (gr : List Release) (g : Release), g ∈ gr →
      parseVersion g.tagName = none →
      (∃ a ∈ g.assets, assetMatches o g.tagName a) →
      ∃ m, ListReleases o (Except.ok gr) "" = Except.ok m ∧
        g.tagName ∈ m.map Prod.fst) ∧
    (∀ (o : Options) (files : List String) (f : String), f ∈ files →
      parseVersion f = none →
      ∃ m, ListInstalledVersions o (Except.ok files) "" = Except.ok m ∧
        f ∈ m.map Prod.fst) := by
  constructor
  · intro o gr g hg hnp hmatch
    refine ⟨gr.foldl (fun t g' => releaseScan o g' t) [], ?_, ?_⟩
    · exact listReleasesLoop_empty_constraint o gr []
    · exact key_in_foldl_releaseScan hmatch hg
  · intro o files f hf hnp
    refine ⟨files.foldl (fun t f' => installEntry o f' t) [], ?_, ?_⟩
    · show Except.ok (listInstalledLoop o "" files []) = _
      rw [listInstalledLoop_empty_constraint o files []]
    · exact key_in_foldl_installEntry hf

theorem claim10_witness :
    (∃ m, ListReleases optsTest
        (Except.ok [⟨"latest", [⟨"fake-service-linux", "u"⟩]⟩]) "" =
        Except.ok m ∧ "latest" ∈ m.map Prod.fst) ∧
    (∃ m, ListInstalledVersions optsTest (Except.ok ["latest"]) "" =
        Except.ok m ∧ "latest" ∈ m.map Prod.fst) :=
  ⟨(claim10_empty_constraint_no_validation).1 optsTest
      [⟨"latest", [⟨"fake-service-linux", "u"⟩]⟩]
      ⟨"latest", [⟨"fake-service-linux", "u"⟩]⟩ (by simp) (by rfl) (by decide),
   (claim10_empty_constraint_no_validation).2 optsTest ["latest"] "latest"
      (by simp) (by rfl)⟩

end Gvm
